import Mathlib

/-!
Shallow embedding of the HealthChat evidence engine (`src/app.py`).

The SQLite `papers` table is modelled as a `List Paper` in rowid
(insertion) order; `conn.commit()` runs after every single INSERT, so the
persistent state after an uncaught exception is exactly the list built up
to the failing entry.  `feedparser.parse` never raises on a network
failure (it yields a feed with an empty `entries` list), so a feed is
modelled by the entry list it parses to; accessing a missing field of a
`FeedParserDict` entry raises `AttributeError`, modelled by `Option`
fields and an `Except` result.  The sklearn TF-IDF vectorizer and
`cosine_similarity` are an external library: the answering pipeline is
parametrized by a similarity oracle applied to the same
`title ++ ". " ++ abstract` document strings the code feeds to it, and
`numpy.argmax` (first index of the maximum) is embedded concretely.
-/

namespace HealthChat

/-- One parsed feed entry, as `feedparser` hands it to the loop body of
`fetch_arxiv_papers`.  A `none` field models a missing attribute, whose
access raises `AttributeError`. -/
structure Entry where
  title : Option String
  summary : Option String
  link : Option String
deriving DecidableEq, Repr

/-- One row of the `papers` table (`id` is implicit as the list position;
`added_on` is the `datetime.utcnow()` timestamp, modelled as a number). -/
structure Paper where
  title : String
  abstract : String
  pdf_url : String
  added_on : Nat
deriving DecidableEq, Repr

/-- Python `str.replace("abs", "pdf")`: a left-to-right scan replacing
every non-overlapping occurrence of `abs` by `pdf`, specialised to the
constant arguments of `app.py` line 61. -/
def absToPdfChars : List Char → List Char
  | 'a' :: 'b' :: 's' :: rest => 'p' :: 'd' :: 'f' :: absToPdfChars rest
  | c :: rest => c :: absToPdfChars rest
  | [] => []

/-- `link.replace("abs", "pdf")` on strings. -/
def pyReplaceAbsPdf (s : String) : String :=
  String.mk (absToPdfChars s.data)

/-- Python `str.strip()`: remove whitespace characters from both ends of
the string (`String.trim` of core is extensionally the same but is not
kernel-reducible, so the list form is used). -/
def pyStrip (s : String) : String :=
  String.mk (((s.data.dropWhile Char.isWhitespace).reverse.dropWhile
    Char.isWhitespace).reverse)

/-- An entry has all three fields the loop body reads. -/
def wfEntry (e : Entry) : Prop :=
  e.title ≠ none ∧ e.summary ≠ none ∧ e.link ≠ none

instance : DecidablePred wfEntry := fun e => by
  unfold wfEntry; infer_instance

/-- The body of the inner loop of `fetch_arxiv_papers` for one entry:
reads `title`/`summary`/`link` (raising on a missing field), strips,
rewrites the link, then either skips a duplicate title or inserts and
commits, bumping the `added` counter.  The state is the committed table
plus the counter; an `error` carries the table as already committed. -/
def processEntry (now : Nat) (st : List Paper × Nat) (e : Entry) :
    Except (List Paper) (List Paper × Nat) :=
  match e.title with
  | none => .error st.1
  | some t =>
    match e.summary with
    | none => .error st.1
    | some s =>
      match e.link with
      | none => .error st.1
      | some l =>
        let title := pyStrip t
        let abstract := pyStrip s
        let pdf_url := pyReplaceAbsPdf l
        if st.1.any (fun p => p.title = title) then
          .ok st
        else
          .ok (st.1 ++ [⟨title, abstract, pdf_url, now⟩], st.2 + 1)

/-- The inner `for entry in feed.entries` loop. -/
def processEntries (now : Nat) : List Entry → List Paper × Nat →
    Except (List Paper) (List Paper × Nat)
  | [], st => .ok st
  | e :: es, st =>
    match processEntry now st e with
    | .error db => .error db
    | .ok st' => processEntries now es st'

/-- The outer `for feed_url in ARXIV_FEEDS` loop; each feed is modelled
by the entry list `feedparser.parse` yields for it (empty on a network
failure, which feedparser absorbs without raising). -/
def processFeeds (now : Nat) : List (List Entry) → List Paper × Nat →
    Except (List Paper) (List Paper × Nat)
  | [], st => .ok st
  | f :: fs, st =>
    match processEntries now f st with
    | .error db => .error db
    | .ok st' => processFeeds now fs st'

/-- `fetch_arxiv_papers()` : starts with `added = 0`, walks every feed and
entry, and returns the committed table together with the count of newly
added papers; an uncaught `AttributeError` is the `error` branch, whose
payload is the table as committed at that point. -/
def fetch_arxiv_papers (now : Nat) (feeds : List (List Entry))
    (db : List Paper) : Except (List Paper) (List Paper × Nat) :=
  processFeeds now feeds (db, 0)

/-- The committed table after a pass, whether it raised or returned. -/
def resultDb : Except (List Paper) (List Paper × Nat) → List Paper
  | .error db => db
  | .ok st => st.1

/-- The `papers` table's `title TEXT UNIQUE` invariant, as a property of
the modelled table. -/
def uniqueTitles (db : List Paper) : Prop :=
  db.Pairwise (fun p q => p.title ≠ q.title)

/-- The titles currently in the table. -/
def titlesOf (db : List Paper) : List String := db.map (fun p => p.title)

/-- The document strings handed to `TfidfVectorizer`:
`df["title"] + ". " + df["abstract"]` row by row. -/
def documentsOf (db : List Paper) : List String :=
  db.map (fun p => p.title ++ ". " ++ p.abstract)

/-- `load_vector_index()` : reads the whole table; an empty table yields
the `(None, None, None)` sentinel, modelled by `none`; otherwise the
dataframe is the table itself (the fitted vectorizer and matrix live in
the external-library oracle). -/
def load_vector_index (db : List Paper) : Option (List Paper) :=
  if db = [] then none else some db

/-- Maximum of a similarity row, as numpy takes it: seeded with the first
element. -/
def listMax : List ℚ → ℚ
  | [] => 0
  | x :: xs => xs.foldl max x

/-- `numpy.argmax` on a 1-d array: the index of the FIRST occurrence of
the maximum value. -/
def npArgmax (l : List ℚ) : Nat :=
  l.findIdx (fun x => listMax l ≤ x)

/-- `get_best_answer`'s message when `load_vector_index` returned the
empty sentinel. -/
def emptyCorpusMsg : String :=
  "No research papers available yet. Please fetch papers first."

/-- `get_best_answer`'s refusal when the best score is below 0.25. -/
def weakEvidenceMsg : String :=
  "I could not find strong evidence in the current research papers. Please consult a medical professional."

/-- The f-string built from the best-matching row (`app.py` 123-127). -/
def answerFrom (p : Paper) : String :=
  "📄 **Based on research findings:**\n\n" ++ p.abstract ++
    "\n\n🔗 **Source:** " ++ p.title ++ "\n" ++ p.pdf_url

/-- `get_best_answer(question)` : `sim` is the external
TF-IDF + cosine-similarity oracle, applied to the same document strings
the code vectorizes; the rest — empty-sentinel short-circuit, `argmax`,
the `score < 0.25` refusal, and the answer f-string — is the code's own
control flow. -/
def get_best_answer (sim : List String → String → List ℚ)
    (db : List Paper) (question : String) : String :=
  match load_vector_index db with
  | none => emptyCorpusMsg
  | some df =>
    let sims := sim (documentsOf df) question
    let top_idx := npArgmax sims
    let score := sims.getD top_idx 0
    if score < 1/4 then
      weakEvidenceMsg
    else
      answerFrom (df.getD top_idx ⟨"", "", "", 0⟩)

/-- Concrete fixture: a one-row corpus. -/
def paperT : Paper := ⟨"T", "A", "u", 0⟩

/-- Concrete similarity oracle giving a single score of 1/2. -/
def simHalf : List String → String → List ℚ := fun _ _ => [1/2]

/-- Fixture: the paper ingested first (`added_on = 0`). -/
def tieP0 : Paper := ⟨"Paper Alpha", "alpha abstract", "u0", 0⟩

/-- Fixture: the paper ingested second (`added_on = 1`). -/
def tieP1 : Paper := ⟨"Paper Beta", "beta abstract", "u1", 1⟩

/-- Similarity oracle scoring both fixture papers equally. -/
def tieSim : List String → String → List ℚ := fun _ _ => [1/2, 1/2]

/-- Fixture: an entry whose stripped title collides with `tieP0`. -/
def dupEntry : Entry := ⟨some "Paper Alpha", some "other text", some "http://y/abs/9"⟩

/-- Fixture: a well-formed entry. -/
def c4Good1 : Entry := ⟨some "Good One", some "S1", some "http://x/abs/1"⟩

/-- Fixture: an entry with a missing `summary` field. -/
def c4Bad : Entry := ⟨some "Bad", none, some "http://x/abs/2"⟩

/-- Fixture: a second well-formed entry, after the malformed one. -/
def c4Good2 : Entry := ⟨some "Good Two", some "S2", some "http://x/abs/3"⟩

end HealthChat

namespace HealthChat

lemma init_le_foldl_max (xs : List ℚ) (a : ℚ) : a ≤ xs.foldl max a := by
  induction xs generalizing a with
  | nil => exact le_refl a
  | cons x xs ih => exact le_trans (le_max_left a x) (ih (max a x))

lemma mem_le_foldl_max (xs : List ℚ) (a x : ℚ) (hx : x ∈ xs) : x ≤ xs.foldl max a := by
  induction xs generalizing a with
  | nil => cases hx
  | cons y ys ih =>
    rcases List.mem_cons.mp hx with h | h
    · subst h
      exact le_trans (le_max_right a x) (init_le_foldl_max ys (max a x))
    · exact ih (max a y) h

lemma foldl_max_mem (xs : List ℚ) (a : ℚ) : xs.foldl max a = a ∨ xs.foldl max a ∈ xs := by
  induction xs generalizing a with
  | nil => exact Or.inl rfl
  | cons x xs ih =>
    rcases ih (max a x) with h | h
    · rcases max_choice a x with hm | hm
      · exact Or.inl (by rw [List.foldl_cons, h, hm])
      · exact Or.inr (by rw [List.foldl_cons, h, hm]; exact List.mem_cons_self x xs)
    · exact Or.inr (List.mem_cons_of_mem x h)

lemma le_listMax (l : List ℚ) (x : ℚ) (hx : x ∈ l) : x ≤ listMax l := by
  cases l with
  | nil => cases hx
  | cons y ys =>
    rcases List.mem_cons.mp hx with h | h
    · subst h; exact init_le_foldl_max ys x
    · exact mem_le_foldl_max ys y x h

lemma listMax_mem (l : List ℚ) (h : l ≠ []) : listMax l ∈ l := by
  cases l with
  | nil => exact absurd rfl h
  | cons y ys =>
    rcases foldl_max_mem ys y with h' | h'
    · rw [listMax, h']; exact List.mem_cons_self y ys
    · exact List.mem_cons_of_mem y h'

lemma npArgmax_lt_length (l : List ℚ) (h : l ≠ []) : npArgmax l < l.length := by
  refine List.findIdx_lt_length_of_exists ⟨listMax l, listMax_mem l h, ?_⟩
  simp

lemma getElem_npArgmax (l : List ℚ) (hlt : npArgmax l < l.length) :
    l[npArgmax l] = listMax l := by
  have h2 : l[npArgmax l] ≤ listMax l := le_listMax l _ (l.getElem_mem hlt)
  unfold npArgmax at hlt ⊢
  have h1 := @List.findIdx_getElem ℚ (fun x => decide (listMax l ≤ x)) l hlt
  exact le_antisymm h2 (of_decide_eq_true h1)

lemma getElem_lt_of_lt_npArgmax (l : List ℚ) (j : Nat) (hj : j < npArgmax l)
    (hjl : j < l.length) : l[j] < listMax l := by
  unfold npArgmax at hj
  have h1 := @List.not_of_lt_findIdx ℚ (fun x => decide (listMax l ≤ x)) l j hj
  exact lt_of_not_le (of_decide_eq_false h1)

lemma answerFrom_data (p : Paper) :
    (answerFrom p).data =
      "📄 **Based on research findings:**\n\n".data ++ p.abstract.data ++
        ("\n\n🔗 **Source:** ".data ++ p.title.data ++ "\n".data ++ p.pdf_url.data) := by
  simp [answerFrom, String.data_append]

lemma answerFrom_ne_weak (p : Paper) : answerFrom p ≠ weakEvidenceMsg := by
  intro h
  have h1 : (answerFrom p).data.head? = weakEvidenceMsg.data.head? := by rw [h]
  rw [answerFrom_data] at h1
  simp at h1
  exact absurd h1 (by decide)

lemma answerFrom_length (p : Paper) :
    (answerFrom p).length =
      p.abstract.length + p.title.length + p.pdf_url.length + 52 := by
  have h1 : ("📄 **Based on research findings:**\n\n" : String).length = 35 := rfl
  have h2 : ("\n\n🔗 **Source:** " : String).length = 16 := rfl
  have h3 : ("\n" : String).length = 1 := rfl
  simp only [answerFrom, String.length_append, h1, h2, h3]
  ring

lemma get_best_answer_cons (sim : List String → String → List ℚ)
    (db : List Paper) (q : String) (hne : db ≠ []) :
    get_best_answer sim db q =
      if (sim (documentsOf db) q).getD (npArgmax (sim (documentsOf db) q)) 0 < 1/4
      then weakEvidenceMsg
      else answerFrom (db.getD (npArgmax (sim (documentsOf db) q)) ⟨"", "", "", 0⟩) := by
  rw [get_best_answer, load_vector_index, if_neg hne]

lemma processEntry_some (now : Nat) (st : List Paper × Nat) (t s l : String) :
    processEntry now st ⟨some t, some s, some l⟩ =
      if st.1.any (fun p => p.title = pyStrip t) then .ok st
      else .ok (st.1 ++ [⟨pyStrip t, pyStrip s, pyReplaceAbsPdf l, now⟩], st.2 + 1) := rfl

lemma processEntry_malformed (now : Nat) (st : List Paper × Nat) (e : Entry)
    (h : ¬ wfEntry e) : processEntry now st e = .error st.1 := by
  rcases e with ⟨(_ | t), (_ | s), (_ | l)⟩ <;> first
    | rfl
    | exact absurd ⟨by simp, by simp, by simp⟩ h

lemma wfEntry_cases (e : Entry) (h : wfEntry e) :
    ∃ t s l, e = ⟨some t, some s, some l⟩ := by
  rcases e with ⟨(_ | t), (_ | s), (_ | l)⟩ <;>
    first
      | exact ⟨t, s, l, rfl⟩
      | · exfalso
          rcases h with ⟨h1, h2, h3⟩
          simp at h1 h2 h3

lemma processEntry_prefix (now : Nat) (st : List Paper × Nat) (e : Entry) :
    st.1 <+: resultDb (processEntry now st e) := by
  rcases e with ⟨(_ | t), (_ | s), (_ | l)⟩ <;>
    try exact List.prefix_refl _
  rw [processEntry_some]
  by_cases h : st.1.any (fun p => p.title = pyStrip t) <;>
    simp [h, resultDb, List.prefix_append]

lemma processEntries_prefix (now : Nat) (es : List Entry) (st : List Paper × Nat) :
    st.1 <+: resultDb (processEntries now es st) := by
  induction es generalizing st with
  | nil => exact List.prefix_refl _
  | cons e es ih =>
    have hpe := processEntry_prefix now st e
    cases hp : processEntry now st e with
    | error d =>
      rw [hp] at hpe
      simpa [processEntries, hp, resultDb] using hpe
    | ok st1 =>
      rw [hp] at hpe
      simp only [resultDb] at hpe
      simp only [processEntries, hp]
      exact hpe.trans (ih st1)

lemma processFeeds_prefix (now : Nat) (fs : List (List Entry)) (st : List Paper × Nat) :
    st.1 <+: resultDb (processFeeds now fs st) := by
  induction fs generalizing st with
  | nil => exact List.prefix_refl _
  | cons f fs ih =>
    have hpe := processEntries_prefix now f st
    cases hp : processEntries now f st with
    | error d =>
      rw [hp] at hpe
      simpa [processFeeds, hp, resultDb] using hpe
    | ok st1 =>
      rw [hp] at hpe
      simp only [resultDb] at hpe
      simp only [processFeeds, hp]
      exact hpe.trans (ih st1)

lemma processEntry_count (now : Nat) (st st' : List Paper × Nat) (e : Entry)
    (hpe : processEntry now st e = .ok st') :
    st'.1.length + st.2 = st.1.length + st'.2 := by
  by_cases hwf : wfEntry e
  · obtain ⟨t, s, l, rfl⟩ := wfEntry_cases e hwf
    rw [processEntry_some] at hpe
    split_ifs at hpe with h
    · cases hpe
      rfl
    · cases hpe
      simp
      omega
  · rw [processEntry_malformed now st e hwf] at hpe
    cases hpe

lemma processEntries_count (now : Nat) (es : List Entry) (st st' : List Paper × Nat)
    (h : processEntries now es st = .ok st') :
    st'.1.length + st.2 = st.1.length + st'.2 := by
  induction es generalizing st with
  | nil =>
    cases h
    rfl
  | cons e es ih =>
    cases hp : processEntry now st e with
    | error d => simp [processEntries, hp] at h
    | ok st1 =>
      simp only [processEntries, hp] at h
      have h1 := processEntry_count now st st1 e hp
      have h2 := ih st1 h
      omega

lemma processFeeds_count (now : Nat) (fs : List (List Entry)) (st st' : List Paper × Nat)
    (h : processFeeds now fs st = .ok st') :
    st'.1.length + st.2 = st.1.length + st'.2 := by
  induction fs generalizing st with
  | nil =>
    cases h
    rfl
  | cons f fs ih =>
    cases hp : processEntries now f st with
    | error d => simp [processFeeds, hp] at h
    | ok st1 =>
      simp only [processFeeds, hp] at h
      have h1 := processEntries_count now f st st1 hp
      have h2 := ih st1 h
      omega

lemma processEntries_ok_wf (now : Nat) (es : List Entry) (st st' : List Paper × Nat)
    (h : processEntries now es st = .ok st') : ∀ e ∈ es, wfEntry e := by
  induction es generalizing st with
  | nil => intro e he; cases he
  | cons e es ih =>
    intro e' he'
    cases hp : processEntry now st e with
    | error d => simp [processEntries, hp] at h
    | ok st1 =>
      simp only [processEntries, hp] at h
      rcases List.mem_cons.mp he' with rfl | hmem
      · by_contra hnwf
        rw [processEntry_malformed now st e' hnwf] at hp
        cases hp
      · exact ih st1 h e' hmem

lemma titles_mono_of_prefix (db1 db2 : List Paper) (h : db1 <+: db2) (t : String)
    (ht : t ∈ titlesOf db1) : t ∈ titlesOf db2 := by
  simp only [titlesOf] at ht ⊢
  exact (h.sublist.map (fun p => p.title)).mem ht

lemma processEntries_ok_title_mem (now : Nat) (es : List Entry)
    (st st' : List Paper × Nat) (h : processEntries now es st = .ok st') :
    ∀ t s l, (⟨some t, some s, some l⟩ : Entry) ∈ es → pyStrip t ∈ titlesOf st'.1 := by
  induction es generalizing st with
  | nil => intro t s l hmem; cases hmem
  | cons e es ih =>
    intro t s l hmem
    cases hp : processEntry now st e with
    | error d => simp [processEntries, hp] at h
    | ok st1 =>
      simp only [processEntries, hp] at h
      have hpre : st1.1 <+: st'.1 := by
        have := processEntries_prefix now es st1
        rwa [h, resultDb] at this
      rcases List.mem_cons.mp hmem with rfl | hmem'
      · rw [processEntry_some] at hp
        split_ifs at hp with hany
        · cases hp
          rcases List.any_eq_true.mp hany with ⟨p, hpmem, hpt⟩
          refine titles_mono_of_prefix _ _ hpre _ ?_
          exact List.mem_map.mpr ⟨p, hpmem, of_decide_eq_true hpt⟩
        · cases hp
          refine titles_mono_of_prefix _ _ hpre _ ?_
          simp [titlesOf]
      · exact ih st1 h t s l hmem'

lemma processFeeds_ok_wf (now : Nat) (fs : List (List Entry)) (st st' : List Paper × Nat)
    (h : processFeeds now fs st = .ok st') : ∀ f ∈ fs, ∀ e ∈ f, wfEntry e := by
  induction fs generalizing st with
  | nil => intro f hf; cases hf
  | cons f fs ih =>
    intro f' hf'
    cases hp : processEntries now f st with
    | error d => simp [processFeeds, hp] at h
    | ok st1 =>
      simp only [processFeeds, hp] at h
      rcases List.mem_cons.mp hf' with rfl | hmem
      · exact processEntries_ok_wf now f' st st1 hp
      · exact ih st1 h f' hmem

lemma processFeeds_ok_title_mem (now : Nat) (fs : List (List Entry))
    (st st' : List Paper × Nat) (h : processFeeds now fs st = .ok st') :
    ∀ f ∈ fs, ∀ t s l, (⟨some t, some s, some l⟩ : Entry) ∈ f →
      pyStrip t ∈ titlesOf st'.1 := by
  induction fs generalizing st with
  | nil => intro f hf; cases hf
  | cons f fs ih =>
    intro f' hf' t s l hmem
    cases hp : processEntries now f st with
    | error d => simp [processFeeds, hp] at h
    | ok st1 =>
      simp only [processFeeds, hp] at h
      rcases List.mem_cons.mp hf' with rfl | hmemf
      · have hpre : st1.1 <+: st'.1 := by
          have := processFeeds_prefix now fs st1
          rwa [h, resultDb] at this
        exact titles_mono_of_prefix _ _ hpre _
          (processEntries_ok_title_mem now f' st st1 hp t s l hmem)
      · exact ih st1 h f' hmemf t s l hmem

lemma processEntries_skip_all (now : Nat) (es : List Entry) (st : List Paper × Nat)
    (h : ∀ e ∈ es, ∃ t s l, e = (⟨some t, some s, some l⟩ : Entry) ∧
      pyStrip t ∈ titlesOf st.1) :
    processEntries now es st = .ok st := by
  induction es with
  | nil => rfl
  | cons e es ih =>
    obtain ⟨t, s, l, rfl, htm⟩ := h e (List.mem_cons_self e es)
    rcases List.mem_map.mp htm with ⟨p, hpmem, hpt⟩
    have hany : st.1.any (fun p => p.title = pyStrip t) = true :=
      List.any_eq_true.mpr ⟨p, hpmem, decide_eq_true hpt⟩
    simp only [processEntries, processEntry_some, if_pos hany]
    exact ih (fun e' he' => h e' (List.mem_cons_of_mem _ he'))

lemma processFeeds_skip_all (now : Nat) (fs : List (List Entry)) (st : List Paper × Nat)
    (h : ∀ f ∈ fs, ∀ e ∈ f, ∃ t s l, e = (⟨some t, some s, some l⟩ : Entry) ∧
      pyStrip t ∈ titlesOf st.1) :
    processFeeds now fs st = .ok st := by
  induction fs with
  | nil => rfl
  | cons f fs ih =>
    have h1 := processEntries_skip_all now f st (h f (List.mem_cons_self f fs))
    simp only [processFeeds, h1]
    exact ih (fun f' hf' => h f' (List.mem_cons_of_mem _ hf'))

lemma processEntries_append (now : Nat) (es1 es2 : List Entry) (st : List Paper × Nat) :
    processEntries now (es1 ++ es2) st =
      match processEntries now es1 st with
      | .error d => .error d
      | .ok st1 => processEntries now es2 st1 := by
  induction es1 generalizing st with
  | nil => rfl
  | cons e es1 ih =>
    cases hp : processEntry now st e with
    | error d => simp [processEntries, hp]
    | ok st1 => simp [processEntries, hp, ih st1]

lemma processEntry_unique (now : Nat) (st : List Paper × Nat) (e : Entry)
    (h : uniqueTitles st.1) : uniqueTitles (resultDb (processEntry now st e)) := by
  by_cases hwf : wfEntry e
  · obtain ⟨t, s, l, rfl⟩ := wfEntry_cases e hwf
    rw [processEntry_some]
    by_cases hany : st.1.any (fun p => p.title = pyStrip t) = true
    · rw [if_pos hany]
      exact h
    · rw [if_neg hany]
      have hall : ∀ p ∈ st.1, p.title ≠ pyStrip t := by
        intro p hp hpt
        exact hany (List.any_eq_true.mpr ⟨p, hp, decide_eq_true hpt⟩)
      simp only [resultDb]
      rw [uniqueTitles, List.pairwise_append]
      exact ⟨h, List.pairwise_singleton _ _, fun a ha b hb => by
        rcases List.mem_singleton.mp hb with rfl
        exact hall a ha⟩
  · rw [processEntry_malformed now st e hwf]
    exact h

lemma processEntries_unique (now : Nat) (es : List Entry) (st : List Paper × Nat)
    (h : uniqueTitles st.1) : uniqueTitles (resultDb (processEntries now es st)) := by
  induction es generalizing st with
  | nil => exact h
  | cons e es ih =>
    have hu := processEntry_unique now st e h
    cases hp : processEntry now st e with
    | error d =>
      rw [hp] at hu
      simpa [processEntries, hp, resultDb] using hu
    | ok st1 =>
      rw [hp] at hu
      simp only [resultDb] at hu
      simp only [processEntries, hp]
      exact ih st1 hu

lemma processFeeds_unique (now : Nat) (fs : List (List Entry)) (st : List Paper × Nat)
    (h : uniqueTitles st.1) : uniqueTitles (resultDb (processFeeds now fs st)) := by
  induction fs generalizing st with
  | nil => exact h
  | cons f fs ih =>
    have hu := processEntries_unique now f st h
    cases hp : processEntries now f st with
    | error d =>
      rw [hp] at hu
      simpa [processFeeds, hp, resultDb] using hu
    | ok st1 =>
      rw [hp] at hu
      simp only [resultDb] at hu
      simp only [processFeeds, hp]
      exact ih st1 hu

end HealthChat

namespace HealthChat

/-- C1: for every non-empty corpus and every query, `get_best_answer`
returns the fixed insufficient-evidence refusal if and only if the
highest similarity score is below the 0.25 threshold; when some score is
at or above the threshold, the answer is built from the document at the
argmax, whose score is the maximum. -/
theorem C1_threshold_decision (sim : List String → String → List ℚ)
    (db : List Paper) (q : String) (hne : db ≠ [])
    (hlen : (sim (documentsOf db) q).length = db.length) :
    (∀ s ∈ sim (documentsOf db) q, s ≤ listMax (sim (documentsOf db) q))
    ∧ (get_best_answer sim db q = weakEvidenceMsg ↔
        listMax (sim (documentsOf db) q) < 1/4)
    ∧ (1/4 ≤ listMax (sim (documentsOf db) q) →
        get_best_answer sim db q =
          answerFrom (db.getD (npArgmax (sim (documentsOf db) q)) ⟨"", "", "", 0⟩)
        ∧ (sim (documentsOf db) q).getD (npArgmax (sim (documentsOf db) q)) 0 =
            listMax (sim (documentsOf db) q)) := by
  have hsne : sim (documentsOf db) q ≠ [] := by
    intro h0
    rw [h0] at hlen
    exact hne (List.eq_nil_of_length_eq_zero hlen.symm)
  have hlt := npArgmax_lt_length _ hsne
  have hscore : (sim (documentsOf db) q).getD (npArgmax (sim (documentsOf db) q)) 0 =
      listMax (sim (documentsOf db) q) := by
    rw [List.getD_eq_getElem _ 0 hlt]
    exact getElem_npArgmax _ hlt
  refine ⟨fun s hs => le_listMax _ s hs, ?_, ?_⟩
  · rw [get_best_answer_cons sim db q hne, hscore]
    by_cases hc : listMax (sim (documentsOf db) q) < 1/4
    · rw [if_pos hc]
      exact ⟨fun _ => hc, fun _ => rfl⟩
    · rw [if_neg hc]
      exact ⟨fun hmsg => absurd hmsg (answerFrom_ne_weak _), fun hmax => absurd hmax hc⟩
  · intro hge
    rw [get_best_answer_cons sim db q hne, hscore, if_neg (not_lt.mpr hge)]
    exact ⟨rfl, rfl⟩

/-- Witness for C1 at a concrete one-paper corpus and score 1/2. -/
theorem C1_witness :
    ([paperT] : List Paper) ≠ []
    ∧ (simHalf (documentsOf [paperT]) "q").length = ([paperT] : List Paper).length
    ∧ (get_best_answer simHalf [paperT] "q" = weakEvidenceMsg ↔
        listMax (simHalf (documentsOf [paperT]) "q") < 1/4) :=
  ⟨by decide, rfl, (C1_threshold_decision simHalf [paperT] "q" (by decide) rfl).2.1⟩

/-- C2: title uniqueness is preserved by every ingestion pass (whether it
completes or raises midway), and an insertion attempt whose stripped
title already exists is a no-op returning the table and the `added`
counter unchanged. -/
theorem C2_title_unique (now : Nat) (feeds : List (List Entry)) (db : List Paper)
    (h : uniqueTitles db) :
    uniqueTitles (resultDb (fetch_arxiv_papers now feeds db))
    ∧ ∀ (now2 : Nat) (st : List Paper × Nat) (t s l : String),
        st.1.any (fun p => p.title = pyStrip t) = true →
        processEntry now2 st ⟨some t, some s, some l⟩ = .ok st := by
  refine ⟨processFeeds_unique now feeds (db, 0) h, ?_⟩
  intro now2 st t s l hany
  rw [processEntry_some, if_pos hany]

/-- Witness for C2: re-ingesting an entry whose title matches the one
stored paper changes nothing. -/
theorem C2_witness :
    uniqueTitles [tieP0]
    ∧ uniqueTitles (resultDb (fetch_arxiv_papers 7 [[dupEntry]] [tieP0]))
    ∧ processEntry 7 ([tieP0], 0) dupEntry = .ok ([tieP0], 0) := by
  have hu : uniqueTitles [tieP0] := List.pairwise_singleton _ _
  have h := C2_title_unique 7 [[dupEntry]] [tieP0] hu
  exact ⟨hu, h.1, h.2 7 ([tieP0], 0) "Paper Alpha" "other text" "http://y/abs/9" rfl⟩

/-- C3 counterexample: no fixed budget bounds the serialized answer —
for every bound there is a corpus (one paper whose abstract is longer
than the bound) on which `get_best_answer` exceeds it, because the code
truncates nothing. -/
theorem C3_counterexample :
    ¬ ∃ B : Nat, ∀ (sim : List String → String → List ℚ) (db : List Paper) (q : String),
        (get_best_answer sim db q).length ≤ B := by
  rintro ⟨B, hB⟩
  have h := hB (fun _ _ => [1]) [⟨"T", String.mk (List.replicate (B+1) 'a'), "u", 0⟩] "q"
  have hred : get_best_answer (fun _ _ => [1])
      [(⟨"T", String.mk (List.replicate (B+1) 'a'), "u", 0⟩ : Paper)] "q" =
      answerFrom ⟨"T", String.mk (List.replicate (B+1) 'a'), "u", 0⟩ := by
    rw [get_best_answer_cons _ _ _ (List.cons_ne_nil _ _)]
    have h0 : npArgmax [(1:ℚ)] = 0 := rfl
    rw [h0]
    norm_num [List.getD]
  rw [hred, answerFrom_length] at h
  have habs : (String.mk (List.replicate (B+1) 'a')).length = B + 1 := by
    rw [String.length_mk, List.length_replicate]
  simp only [habs] at h
  omega

/-- C3 amended: the answering step applies no budget or excerpting — the
answer embeds the selected document's abstract verbatim and its length
is exactly 52 characters plus the abstract, title and URL lengths, hence
always strictly longer than the abstract. -/
theorem C3_no_truncation (p : Paper) :
    (answerFrom p).length = p.abstract.length + p.title.length + p.pdf_url.length + 52
    ∧ (answerFrom p).data =
        "📄 **Based on research findings:**\n\n".data ++ p.abstract.data ++
          ("\n\n🔗 **Source:** ".data ++ p.title.data ++ "\n".data ++ p.pdf_url.data)
    ∧ p.abstract.length < (answerFrom p).length :=
  ⟨answerFrom_length p, answerFrom_data p, by rw [answerFrom_length]; omega⟩

/-- C4 counterexample: a pass over one feed holding a well-formed entry,
an entry missing its `summary`, and another well-formed entry raises
after committing only the first paper — the third entry is never
ingested, so the pass does not proceed to completion. -/
theorem C4_counterexample :
    fetch_arxiv_papers 0 [[c4Good1, c4Bad, c4Good2]] [] =
      .error [⟨"Good One", "S1", "http://x/pdf/1", 0⟩]
    ∧ "Good Two" ∉ titlesOf (resultDb (fetch_arxiv_papers 0 [[c4Good1, c4Bad, c4Good2]] [])) :=
  ⟨rfl, by decide⟩

/-- C4 amended: a source whose feed parses to no entries (feedparser
absorbs network failures) is skipped and the pass continues, but nothing
is caught by the loop itself: a malformed entry raises immediately and
the error aborts every remaining entry and source of the pass. -/
theorem C4_abort_on_malformed :
    (∀ (now : Nat) (fs : List (List Entry)) (st : List Paper × Nat),
        processFeeds now ([] :: fs) st = processFeeds now fs st)
    ∧ (∀ (now : Nat) (st : List Paper × Nat) (e : Entry) (rest : List Entry),
        ¬ wfEntry e → processEntries now (e :: rest) st = .error st.1)
    ∧ (∀ (now : Nat) (f : List Entry) (fs : List (List Entry))
        (st : List Paper × Nat) (d : List Paper),
        processEntries now f st = .error d → processFeeds now (f :: fs) st = .error d) := by
  refine ⟨fun now fs st => rfl, ?_, ?_⟩
  · intro now st e rest hnwf
    simp only [processEntries, processEntry_malformed now st e hnwf]
  · intro now f fs st d h
    simp only [processFeeds, h]

/-- Witness for C4 amended: the malformed fixture entry aborts its feed,
and the error propagates past the remaining feeds. -/
theorem C4_abort_witness :
    ¬ wfEntry c4Bad
    ∧ processEntries 0 [c4Bad, c4Good2] ([], 0) = .error []
    ∧ processFeeds 0 [[c4Bad, c4Good2], [c4Good1]] ([], 0) = .error [] := by
  have h2 := C4_abort_on_malformed.2.1 0 ([], 0) c4Bad [c4Good2] (by decide)
  exact ⟨by decide, h2, C4_abort_on_malformed.2.2 0 [c4Bad, c4Good2] [[c4Good1]] ([], 0) [] h2⟩

/-- C5 counterexample: two papers with equal scores 1/2, the first
ingested earlier — the code answers from the earlier-ingested
`tieP0` (numpy argmax returns the first maximum), not from the more
recently ingested `tieP1` as the claim requires. -/
theorem C5_counterexample :
    tieP0.added_on < tieP1.added_on
    ∧ tieSim (documentsOf [tieP0, tieP1]) "q" = [1/2, 1/2]
    ∧ get_best_answer tieSim [tieP0, tieP1] "q" = answerFrom tieP0
    ∧ answerFrom tieP0 ≠ answerFrom tieP1 := by
  have h0 : npArgmax (tieSim (documentsOf [tieP0, tieP1]) "q") = 0 := by
    norm_num [tieSim, npArgmax, listMax, List.findIdx_cons]
  refine ⟨by decide, rfl, ?_, by decide⟩
  rw [get_best_answer_cons _ _ _ (by decide), h0]
  norm_num [tieSim, List.getD]

/-- C5 amended: only a single best document is returned, and it is the
one at the FIRST table-row index attaining the maximum score — every
strictly earlier row scores strictly below the maximum — so among tied
top scorers the earliest-ingested row wins, not the most recent. -/
theorem C5_first_of_ties (sim : List String → String → List ℚ)
    (db : List Paper) (q : String) (hne : db ≠ [])
    (hlen : (sim (documentsOf db) q).length = db.length)
    (hge : 1/4 ≤ listMax (sim (documentsOf db) q)) :
    get_best_answer sim db q =
      answerFrom (db.getD (npArgmax (sim (documentsOf db) q)) ⟨"", "", "", 0⟩)
    ∧ (sim (documentsOf db) q).getD (npArgmax (sim (documentsOf db) q)) 0 =
        listMax (sim (documentsOf db) q)
    ∧ ∀ j, j < npArgmax (sim (documentsOf db) q) →
        (sim (documentsOf db) q).getD j 0 < listMax (sim (documentsOf db) q) := by
  have hsne : sim (documentsOf db) q ≠ [] := by
    intro h0
    rw [h0] at hlen
    exact hne (List.eq_nil_of_length_eq_zero hlen.symm)
  have hlt := npArgmax_lt_length _ hsne
  have hscore : (sim (documentsOf db) q).getD (npArgmax (sim (documentsOf db) q)) 0 =
      listMax (sim (documentsOf db) q) := by
    rw [List.getD_eq_getElem _ 0 hlt]
    exact getElem_npArgmax _ hlt
  refine ⟨?_, hscore, ?_⟩
  · rw [get_best_answer_cons sim db q hne, hscore, if_neg (not_lt.mpr hge)]
  · intro j hj
    have hjl : j < (sim (documentsOf db) q).length := lt_trans hj hlt
    rw [List.getD_eq_getElem _ 0 hjl]
    exact getElem_lt_of_lt_npArgmax _ j hj hjl

/-- Witness for C5 amended at the tied fixture corpus. -/
theorem C5_first_of_ties_witness :
    ([tieP0, tieP1] : List Paper) ≠ []
    ∧ (tieSim (documentsOf [tieP0, tieP1]) "q").length = ([tieP0, tieP1] : List Paper).length
    ∧ 1/4 ≤ listMax (tieSim (documentsOf [tieP0, tieP1]) "q")
    ∧ get_best_answer tieSim [tieP0, tieP1] "q" =
        answerFrom (([tieP0, tieP1] : List Paper).getD
          (npArgmax (tieSim (documentsOf [tieP0, tieP1]) "q")) ⟨"", "", "", 0⟩) :=
  ⟨by decide, rfl, by norm_num [tieSim, listMax],
    (C5_first_of_ties tieSim [tieP0, tieP1] "q" (by decide) rfl
      (by norm_num [tieSim, listMax])).1⟩

/-- C6: the empty corpus yields the `(None, None, None)` sentinel, on
which the answering operation returns the dedicated empty-corpus message
— a different string from the weak-evidence refusal — and the result
does not depend on the similarity oracle at all (no scores are
computed; the code contains no generator call on any path). -/
theorem C6_empty_sentinel :
    load_vector_index [] = none
    ∧ (∀ (sim : List String → String → List ℚ) (q : String),
        get_best_answer sim [] q = emptyCorpusMsg)
    ∧ (∀ (sim1 sim2 : List String → String → List ℚ) (q : String),
        get_best_answer sim1 [] q = get_best_answer sim2 [] q)
    ∧ emptyCorpusMsg ≠ weakEvidenceMsg :=
  ⟨rfl, fun _ _ => rfl, fun _ _ _ => rfl, by decide⟩

/-- C7: answering is deterministic — equal corpus snapshots and equal
query texts produce equal answer strings under the same similarity
oracle. -/
theorem C7_deterministic (sim : List String → String → List ℚ)
    (db1 db2 : List Paper) (q1 q2 : String) (hdb : db1 = db2) (hq : q1 = q2) :
    get_best_answer sim db1 q1 = get_best_answer sim db2 q2 := by
  rw [hdb, hq]

/-- Witness for C7 at a concrete corpus and query. -/
theorem C7_witness :
    ([⟨"T", "A", "u", 0⟩] : List Paper) = [⟨"T", "A", "u", 0⟩] ∧ ("q" : String) = "q" ∧
      get_best_answer (fun _ _ => [1]) [⟨"T", "A", "u", 0⟩] "q" =
        get_best_answer (fun _ _ => [1]) [⟨"T", "A", "u", 0⟩] "q" :=
  ⟨rfl, rfl, C7_deterministic (fun _ _ => [1]) _ _ "q" "q" rfl rfl⟩

/-- C8: a completed ingestion pass returns exactly the growth of the
table, and re-running the same feeds over the resulting table is a
no-op returning 0. -/
theorem C8_count_added :
    (∀ (now : Nat) (feeds : List (List Entry)) (db db' : List Paper) (n : Nat),
        fetch_arxiv_papers now feeds db = .ok (db', n) →
        db'.length = db.length + n)
    ∧ (∀ (now now2 : Nat) (feeds : List (List Entry)) (db db' : List Paper) (n : Nat),
        fetch_arxiv_papers now feeds db = .ok (db', n) →
        fetch_arxiv_papers now2 feeds db' = .ok (db', 0)) := by
  constructor
  · intro now feeds db db' n h
    have := processFeeds_count now feeds (db, 0) (db', n) h
    simp only at this
    omega
  · intro now now2 feeds db db' n h
    refine processFeeds_skip_all now2 feeds (db', 0) ?_
    intro f hf e he
    obtain ⟨t, s, l, rfl⟩ := wfEntry_cases e (processFeeds_ok_wf now feeds _ _ h f hf e he)
    exact ⟨t, s, l, rfl, processFeeds_ok_title_mem now feeds _ _ h f hf t s l he⟩

/-- Witness for C8: one new paper gives count 1, and the overlapping
second pass gives count 0 with the table unchanged. -/
theorem C8_witness :
    fetch_arxiv_papers 0 [[c4Good1]] [] = .ok ([⟨"Good One", "S1", "http://x/pdf/1", 0⟩], 1)
    ∧ ([(⟨"Good One", "S1", "http://x/pdf/1", 0⟩ : Paper)]).length = ([] : List Paper).length + 1
    ∧ fetch_arxiv_papers 9 [[c4Good1]] [⟨"Good One", "S1", "http://x/pdf/1", 0⟩] =
        .ok ([⟨"Good One", "S1", "http://x/pdf/1", 0⟩], 0) :=
  ⟨rfl, C8_count_added.1 0 [[c4Good1]] [] _ 1 rfl, C8_count_added.2 0 9 [[c4Good1]] [] _ 1 rfl⟩

/-- C9: every insert is committed individually, so the original table is
always a prefix of the committed state (raise or return), and when a
malformed entry follows a successfully processed prefix, the pass raises
with exactly the papers committed for that prefix — earlier inserts of
the pass survive the exception. -/
theorem C9_durable_inserts :
    (∀ (now : Nat) (feeds : List (List Entry)) (db : List Paper),
        db <+: resultDb (fetch_arxiv_papers now feeds db))
    ∧ (∀ (now : Nat) (es rest : List Entry) (e : Entry) (db : List Paper)
        (st' : List Paper × Nat),
        processEntries now es (db, 0) = .ok st' → ¬ wfEntry e →
        fetch_arxiv_papers now [es ++ e :: rest] db = .error st'.1) := by
  constructor
  · intro now feeds db
    exact processFeeds_prefix now feeds (db, 0)
  · intro now es rest e db st' hok hnwf
    have h1 : processEntries now (es ++ e :: rest) (db, 0) = .error st'.1 := by
      rw [processEntries_append, hok]
      simp only [processEntries, processEntry_malformed now st' e hnwf]
    simp only [fetch_arxiv_papers, processFeeds, h1]

/-- Witness for C9: the paper inserted before the malformed entry is in
the raised state. -/
theorem C9_witness :
    processEntries 0 [c4Good1] ([], 0) = .ok ([⟨"Good One", "S1", "http://x/pdf/1", 0⟩], 1)
    ∧ ¬ wfEntry c4Bad
    ∧ fetch_arxiv_papers 0 [[c4Good1] ++ c4Bad :: [c4Good2]] [] =
        .error [⟨"Good One", "S1", "http://x/pdf/1", 0⟩] :=
  ⟨rfl, by decide,
    C9_durable_inserts.2 0 [c4Good1] [c4Good2] c4Bad []
      ([⟨"Good One", "S1", "http://x/pdf/1", 0⟩], 1) rfl (by decide)⟩

/-- C10: the stored link of an inserted entry is the entry link with
EVERY occurrence of `abs` replaced by `pdf` — including occurrences in
the host name or identifier, as the two concrete links show. -/
theorem C10_replace_all :
    (∀ (now : Nat) (st : List Paper × Nat) (t s l : String),
        st.1.any (fun p => p.title = pyStrip t) = false →
        processEntry now st ⟨some t, some s, some l⟩ =
          .ok (st.1 ++ [⟨pyStrip t, pyStrip s, pyReplaceAbsPdf l, now⟩], st.2 + 1))
    ∧ pyReplaceAbsPdf "https://abs.example.org/abs/2104.0001" =
        "https://pdf.example.org/pdf/2104.0001"
    ∧ pyReplaceAbsPdf "http://export.arxiv.org/abs/absurd" =
        "http://export.arxiv.org/pdf/pdfurd" := by
  refine ⟨?_, rfl, rfl⟩
  intro now st t s l hany
  rw [processEntry_some, if_neg (by rw [hany]; exact Bool.false_ne_true)]

/-- Witness for C10: inserting into an empty table stores the rewritten
link, with the `abs` in the host name rewritten too. -/
theorem C10_witness :
    (([] : List Paper).any (fun p => p.title = pyStrip "T") = false)
    ∧ processEntry 3 ([], 0) ⟨some "T", some "S", some "https://abs.host/abs/7"⟩ =
        .ok ([⟨"T", "S", "https://pdf.host/pdf/7", 3⟩], 1) := by
  have h := C10_replace_all.1 3 ([], 0) "T" "S" "https://abs.host/abs/7" rfl
  exact ⟨rfl, by rw [h]; rfl⟩

end HealthChat
